import Mathlib

/-!
Verification development for the LexNum conversion engine
(`scripts/converter.py`, `scripts/excel_processor.py`).

The Python code is shallowly embedded: strings are `List Char`, Python
floats are modelled as exact rationals extended with the IEEE special
values (`inf`, `-inf`, `nan`); a decimal string whose exact value lies at
or beyond `2 ^ 1024` parses to infinity, as `float()` does.  Fallible
Python code is embedded with `Except` / `Option`: an uncaught exception is
an `Except.error` value.  Unicode data (`unicodedata.normalize("NFKD", _)`,
`unicodedata.combining`, `str.lower`, `str.upper`) is modelled by finite
tables covering the characters this development evaluates (Spanish
accented letters, combining accents U+0300..U+036F, and the fullwidth
letters U+FF2E/U+FF4E); every other character is its own decomposition.
-/

set_option maxRecDepth 100000

namespace LexNum

/-- Decidable equality of `Except` results, used to state and evaluate the
behaviour of the embedded fallible functions. -/
instance {ε α : Type} [DecidableEq ε] [DecidableEq α] : DecidableEq (Except ε α) := fun x y =>
  match x, y with
  | .ok a, .ok b => if h : a = b then .isTrue (by rw [h]) else .isFalse (by simp [h])
  | .error a, .error b => if h : a = b then .isTrue (by rw [h]) else .isFalse (by simp [h])
  | .ok _, .error _ => .isFalse (by simp)
  | .error _, .ok _ => .isFalse (by simp)

/-- The whitespace characters recognised by the model of `str.strip` and of
the regex class `\s`: space, tab, LF, CR, VT, FF and NBSP. -/
def wsChar (c : Char) : Bool :=
  c = ' ' || c = '\t' || c = '\n' || c = '\r' || c = '\x0b' || c = '\x0c' || c = ' '

/-- Removes trailing characters satisfying `p` (model of the right half of
`str.strip`). -/
def dropTrailing (p : Char → Bool) (s : List Char) : List Char :=
  (s.reverse.dropWhile p).reverse

/-- Model of Python `str.strip()`: remove leading and trailing whitespace. -/
def pyStrip (s : List Char) : List Char :=
  dropTrailing wsChar (s.dropWhile wsChar)

/-- Fuel-driven worker for `replaceAll`.  Scans left to right; when `pat`
is a prefix of the remaining input it emits `repl` and continues after the
match, exactly like Python `str.replace` with all occurrences replaced.
The fuel only bounds the recursion; `replaceAll` supplies enough of it. -/
def replaceAllGo (pat repl : List Char) : Nat → List Char → List Char
  | _, [] => []
  | 0, s => s
  | f + 1, c :: rest =>
    if pat ≠ [] ∧ pat.isPrefixOf (c :: rest) then
      repl ++ replaceAllGo pat repl f ((c :: rest).drop pat.length)
    else
      c :: replaceAllGo pat repl f rest

/-- Model of Python `s.replace(pat, repl)` for a non-empty `pat`:
replace every non-overlapping occurrence, scanning left to right. -/
def replaceAll (pat repl s : List Char) : List Char :=
  replaceAllGo pat repl s.length s

/-- `CURRENCY_SYMBOLS = ("$", "MXN", "M.N.", "MN", ",")` from
`scripts/converter.py`, in the tuple's order. -/
def CURRENCY_SYMBOLS : List (List Char) :=
  ["$".data, "MXN".data, "M.N.".data, "MN".data, ",".data]

/-- `DECIMAL_PRECISION = 100` from `scripts/converter.py`. -/
def DECIMAL_PRECISION : ℕ := 100

/-- `CURRENCY_SUFFIX = "M.N."` from `scripts/converter.py`. -/
def CURRENCY_SUFFIX : String := "M.N."

/-- The loop `for symbol in CURRENCY_SYMBOLS: value_str = value_str.replace(symbol, "")`
run with an arbitrary token list (the source uses `CURRENCY_SYMBOLS`). -/
def stripTokensIn (l : List (List Char)) (s : List Char) : List Char :=
  l.foldl (fun acc t => replaceAll t [] acc) s

/-- The symbol-removal loop of `clean_num`, with the source's fixed order. -/
def stripTokens (s : List Char) : List Char :=
  stripTokensIn CURRENCY_SYMBOLS s

/-- A Python float: an exact rational for the finite values, plus the
special values.  Finite values are kept exact rather than rounded to
binary; the development never relies on a value that a double cannot
round-trip through its decimal text. -/
inductive PyFloat
  | finite (q : ℚ)
  | inf
  | neginf
  | nan
deriving DecidableEq

/-- Overflow cutoff of IEEE doubles as modelled here: a parsed magnitude
at or beyond `2 ^ 1024` becomes infinite, as in `float("1e400")`. -/
def doubleCutoff : ℚ := mkRat (((2 : ℕ) ^ (1024 : ℕ) : ℕ) : ℤ) 1

/-- Subtraction on `ℚ` written with `mkRat` so the kernel evaluates it. -/
def ratSub (a b : ℚ) : ℚ :=
  mkRat (a.num * (b.den : ℤ) - b.num * (a.den : ℤ)) (a.den * b.den)

/-- Multiplication on `ℚ` written with `mkRat` so the kernel evaluates it. -/
def ratMul (a b : ℚ) : ℚ := mkRat (a.num * b.num) (a.den * b.den)

/-- The order on `ℚ` by cross-multiplication (denominators are positive). -/
def ratLeB (a b : ℚ) : Bool := a.num * (b.den : ℤ) ≤ b.num * (a.den : ℤ)

/-- Strict order on `ℚ` by cross-multiplication. -/
def ratLtB (a b : ℚ) : Bool := a.num * (b.den : ℤ) < b.num * (a.den : ℤ)

/-- Classify an exact parsed value as a Python float. -/
def classifyFloat (q : ℚ) : PyFloat :=
  if ratLeB doubleCutoff q then .inf
  else if ratLeB q (mkRat (-(((2 : ℕ) ^ (1024 : ℕ) : ℕ) : ℤ)) 1) then .neginf
  else .finite q

/-- Consume one optional sign.  Returns `(isNegative, rest)`. -/
def takeSign : List Char → Bool × List Char
  | '-' :: rest => (true, rest)
  | '+' :: rest => (false, rest)
  | s => (false, s)

/-- Digit sequence with Python's underscore rule (an underscore must sit
between two digits).  Accumulates the value and the digit count. -/
def digitsAux : List Char → Nat → Nat → Option (Nat × Nat)
  | [], v, k => some (v, k)
  | ['_'], _, _ => none
  | '_' :: c :: rest, v, k =>
    if c.isDigit then digitsAux rest (v * 10 + (c.toNat - 48)) (k + 1) else none
  | c :: rest, v, k =>
    if c.isDigit then digitsAux rest (v * 10 + (c.toNat - 48)) (k + 1) else none

/-- Value and digit count of a non-empty digit sequence (underscores
allowed between digits), or `none` if the sequence is malformed. -/
def digitsUVal : List Char → Option (Nat × Nat)
  | [] => none
  | c :: rest => if c.isDigit then digitsAux rest (c.toNat - 48) 1 else none

/-- Mantissa of a float literal: `digits`, `digits.`, `digits.digits` or
`.digits`.  Returned as `(value, scale)` denoting `value / 10 ^ scale`. -/
def parseMantissa (m : List Char) : Option (Nat × Nat) :=
  match m.splitOn '.' with
  | [a] => (digitsUVal a).map fun p => (p.1, 0)
  | [a, b] =>
    if a = [] ∧ b = [] then none
    else do
      let av ← if a = [] then some (0, 0) else digitsUVal a
      let bv ← if b = [] then some (0, 0) else digitsUVal b
      some (av.1 * 10 ^ bv.2 + bv.1, bv.2)
  | _ => none

/-- The exact rational `± (num / 10 ^ scale) * 10 ^ e` of a parsed float
literal, assembled with integer arithmetic. -/
def ratOfParts (neg : Bool) (num scale : Nat) (e : ℤ) : ℚ :=
  let n : ℤ := if neg then -(num : ℤ) else (num : ℤ)
  if 0 ≤ e then mkRat (n * (((10 : ℕ) ^ e.toNat : ℕ) : ℤ)) ((10 : ℕ) ^ scale)
  else mkRat n ((10 : ℕ) ^ scale * (10 : ℕ) ^ (-e).toNat)

/-- Exponent part of a float literal: optional sign then digits. -/
def parseExp (ex : List Char) : Option ℤ :=
  let sr := takeSign ex
  (digitsUVal sr.2).map fun p => if sr.1 then -(p.1 : ℤ) else (p.1 : ℤ)

/-- ASCII lower-casing used when matching the `inf` / `nan` keywords. -/
def asciiLower (c : Char) : Char := c.toLower

/-- Model of Python `float(s)` on an already-stripped string: optional
sign; `inf`, `infinity` or `nan` case-insensitively; or a decimal literal
`mantissa [e exponent]` with `.` as the decimal point and underscores
allowed between digits.  Out-of-range magnitudes give infinity. -/
def pyFloatOfString (s : List Char) : Option PyFloat :=
  if s = [] then none
  else
    let sr := takeSign s
    let low := sr.2.map asciiLower
    if low = "inf".data ∨ low = "infinity".data then
      some (if sr.1 then .neginf else .inf)
    else if low = "nan".data then some .nan
    else
      match (sr.2.map fun c => if c = 'E' then 'e' else c).splitOn 'e' with
      | [m] => do
        let mv ← parseMantissa m
        some (classifyFloat (ratOfParts sr.1 mv.1 mv.2 0))
      | [m, ex] => do
        let mv ← parseMantissa m
        let ev ← parseExp ex
        some (classifyFloat (ratOfParts sr.1 mv.1 mv.2 ev))
      | _ => none

/-- A scalar input to the converter: `None`, a string, an int or a float. -/
inductive Value
  | vnone
  | vstr (s : List Char)
  | vint (n : ℤ)
  | vfloat (f : PyFloat)
deriving DecidableEq

/-- The `ValueError` raised at the end of `clean_num`; it carries the
original input (`f"No se pudo convertir '{value}' a número"`). -/
structure ConvError where
  src : Value
deriving DecidableEq

/-- The cleaned string of `clean_num` on a string input:
`str(value).strip()`, then the symbol-removal loop, then `.strip()`. -/
def cleanedStr (s : List Char) : List Char :=
  pyStrip (stripTokens (pyStrip s))

/-- Model of `clean_num` from `scripts/converter.py`.  `value in (None, "", " ")`
yields `None`; a string is stripped, token-stripped and re-stripped, an
empty result yields `None`, otherwise it is given to `float`, whose
failure raises `ValueError` carrying the original input.  A numeric input
round-trips through `str` and `float` unchanged (decimal repr of a float
is exact for round-trip and contains no currency token). -/
def clean_num : Value → Except ConvError (Option PyFloat)
  | .vnone => .ok none
  | .vstr s =>
    if s = [] ∨ s = [' '] then .ok none
    else
      let s3 := cleanedStr s
      if s3 = [] then .ok none
      else
        match pyFloatOfString s3 with
        | some f => .ok (some f)
        | none => .error ⟨.vstr s⟩
  | .vint n => .ok (some (classifyFloat (mkRat n 1)))
  | .vfloat f => .ok (some f)

/-- Model of Python `int(q)` on a finite float: truncation toward zero. -/
def ratTrunc (q : ℚ) : ℤ := q.num.tdiv q.den

/-- Floor of a rational, written with `Int.fdiv` so the kernel reduces it. -/
def ratFloor (q : ℚ) : ℤ := q.num.fdiv q.den

/-- Model of Python `round(q)`: round half to even. -/
def pyRound (q : ℚ) : ℤ :=
  let f := ratFloor q
  let r := ratSub q (mkRat f 1)
  if ratLtB r (mkRat 1 2) then f
  else if ratLtB (mkRat 1 2) r then f + 1
  else if f % 2 = 0 then f else f + 1

/-- Model of the f-string formatting `f"{n:02d}"`: decimal digits padded
with a leading zero to width two; a negative sign counts toward the
width. -/
def pyFormat02 (n : ℤ) : List Char :=
  if n < 0 then '-' :: Nat.toDigits 10 n.natAbs
  else
    let d := Nat.toDigits 10 n.toNat
    if d.length < 2 then '0' :: d else d

/-- Spanish number words 0..29, as produced by the external `num2words`
library with `lang="es"` (modelled; see `num2words_es`). -/
def esUnits (n : Nat) : List Char :=
  (List.getD
    ["cero", "uno", "dos", "tres", "cuatro", "cinco", "seis", "siete",
     "ocho", "nueve", "diez", "once", "doce", "trece", "catorce", "quince",
     "dieciséis", "diecisiete", "dieciocho", "diecinueve", "veinte",
     "veintiuno", "veintidós", "veintitrés", "veinticuatro", "veinticinco",
     "veintiséis", "veintisiete", "veintiocho", "veintinueve"] n "").data

/-- Spanish tens words, index 3..9. -/
def esTens (n : Nat) : List Char :=
  (List.getD
    ["", "", "", "treinta", "cuarenta", "cincuenta", "sesenta", "setenta",
     "ochenta", "noventa"] n "").data

/-- Spanish hundreds words, index 2..9 (`cien`/`ciento` handled apart). -/
def esHundreds (n : Nat) : List Char :=
  (List.getD
    ["", "", "doscientos", "trescientos", "cuatrocientos", "quinientos",
     "seiscientos", "setecientos", "ochocientos", "novecientos"] n "").data

/-- Spanish cardinal for `n < 100`. -/
def esSub100 (n : Nat) : List Char :=
  if n < 30 then esUnits n
  else
    let u := n % 10
    if u = 0 then esTens (n / 10)
    else esTens (n / 10) ++ " y ".data ++ esUnits u

/-- Spanish cardinal for `n < 1000`. -/
def esSub1000 (n : Nat) : List Char :=
  if n < 100 then esSub100 n
  else if n = 100 then "cien".data
  else
    let r := n % 100
    (if n / 100 = 1 then "ciento".data else esHundreds (n / 100)) ++
      (if r = 0 then [] else ' ' :: esSub100 r)

/-- Apocope applied before a scale word: a trailing `veintiuno` becomes
`veintiún` and any other trailing `uno` becomes `un`. -/
def apocope (w : List Char) : List Char :=
  if "veintiuno".data.isSuffixOf w then w.dropLast.dropLast.dropLast ++ "ún".data
  else if "uno".data.isSuffixOf w then w.dropLast
  else w

/-- Spanish cardinal for `n < 1000000`. -/
def esSub1000000 (n : Nat) : List Char :=
  if n < 1000 then esSub1000 n
  else
    let r := n % 1000
    (if n / 1000 = 1 then "mil".data else apocope (esSub1000 (n / 1000)) ++ " mil".data) ++
      (if r = 0 then [] else ' ' :: esSub1000 r)

/-- Spanish cardinal of a natural number (millions and above follow the
same scheme; the development only evaluates this below one million). -/
def esNat (n : Nat) : List Char :=
  if n < 1000000 then esSub1000000 n
  else
    let r := n % 1000000
    (if n / 1000000 = 1 then "un millón".data
     else apocope (esSub1000000 (n / 1000000)) ++ " millones".data) ++
      (if r = 0 then [] else ' ' :: esSub1000000 r)

/-- Model of the external library call `num2words(n, lang="es")` for the
integers reached by the renderer: the Spanish cardinal, lowercase, with a
`menos` prefix on negatives. -/
def num2words_es (n : ℤ) : List Char :=
  if n < 0 then "menos ".data ++ esNat n.natAbs else esNat n.toNat

/-- Model of `str.upper()` on the characters `num2words` can emit: ASCII
letters plus the accented Spanish vowels and `ñ`. -/
def upChar (c : Char) : Char :=
  if c = 'á' then 'Á' else if c = 'é' then 'É' else if c = 'í' then 'Í'
  else if c = 'ó' then 'Ó' else if c = 'ú' then 'Ú' else if c = 'ü' then 'Ü'
  else if c = 'ñ' then 'Ñ' else c.toUpper

/-- `str.upper()` over a whole string. -/
def pyUpper (s : List Char) : List Char := s.map upChar

/-- The grammar-normalisation chain of `numero_a_texto`:
`.replace(" UNO ", " UN ").replace("UNO ", "UN ").replace(" UNO", " UN")`. -/
def normalizeUno (s : List Char) : List Char :=
  replaceAll " UNO".data " UN".data
    (replaceAll "UNO ".data "UN ".data
      (replaceAll " UNO ".data " UN ".data s))

/-- The substitution the specification describes: every space-delimited
whole word equal to `UNO` becomes `UN` (words at the start or end of the
string included), everything else untouched.  Used to compare the
implementation's chain of textual replacements against the claimed
behaviour. -/
def wholeWordUnoNorm (s : List Char) : List Char :=
  List.intercalate [' ']
    ((s.splitOn ' ').map fun w => if w = "UNO".data then "UN".data else w)

/-- The exception kinds that can escape `numero_a_texto`: its `except`
clause catches only `ValueError`, `TypeError` and `AttributeError`, so
the `OverflowError` of `int()` applied to an infinite float is uncaught. -/
inductive PyExn
  | overflowError
deriving DecidableEq

/-- Model of `numero_a_texto` from `scripts/converter.py`.  A `clean_num`
failure is a `ValueError` and is caught, as is the `ValueError` of
`int(nan)`; `int(±inf)` raises `OverflowError`, which the `except` clause
does not list, so it escapes as an error value. -/
def numero_a_texto (v : Value) : Except PyExn (List Char) :=
  match clean_num v with
  | .error _ => .ok []
  | .ok none => .ok []
  | .ok (some .nan) => .ok []
  | .ok (some .inf) => .error .overflowError
  | .ok (some .neginf) => .error .overflowError
  | .ok (some (.finite q)) =>
    let parte_entera : ℤ := ratTrunc q
    let parte_decimal : ℤ :=
      pyRound (ratMul (ratSub q (mkRat parte_entera 1)) (mkRat (DECIMAL_PRECISION : ℤ) 1))
    let texto_numero := normalizeUno (pyUpper (num2words_es parte_entera))
    let sufijo_centavos := pyFormat02 parte_decimal ++ "/100 ".data ++ CURRENCY_SUFFIX.data
    if parte_entera = 1 then .ok ("UN PESO ".data ++ sufijo_centavos)
    else .ok (texto_numero ++ " PESOS ".data ++ sufijo_centavos)

/-- Canonical (NFD) decomposition table on the modelled character set: the
Spanish accented letters decompose into their base letter followed by a
combining mark (U+0301 acute, U+0308 diaeresis, U+0303 tilde); every
other modelled character is canonically stable. -/
def nfd (c : Char) : List Char :=
  match c with
  | 'á' => ['a', '́'] | 'é' => ['e', '́'] | 'í' => ['i', '́']
  | 'ó' => ['o', '́'] | 'ú' => ['u', '́'] | 'ü' => ['u', '̈']
  | 'ñ' => ['n', '̃']
  | 'Á' => ['A', '́'] | 'É' => ['E', '́'] | 'Í' => ['I', '́']
  | 'Ó' => ['O', '́'] | 'Ú' => ['U', '́'] | 'Ü' => ['U', '̈']
  | 'Ñ' => ['N', '̃']
  | c => [c]

/-- Compatibility (NFKD) decomposition on the modelled character set, the
operation `unicodedata.normalize("NFKD", _)` actually performs per
character: the canonical decompositions of `nfd` plus the compatibility
mappings of the fullwidth letters U+FF2E `Ｎ` → `N` and U+FF4E `ｎ` → `n`
(decomposition type `<wide>`, which NFD leaves intact). -/
def nfkd (c : Char) : List Char :=
  match c with
  | 'Ｎ' => ['N']
  | 'ｎ' => ['n']
  | c => nfd c

/-- Model of `unicodedata.combining(c) != 0`: the combining diacritical
marks block U+0300..U+036F. -/
def comb (c : Char) : Bool :=
  decide (0x300 ≤ c.toNat ∧ c.toNat ≤ 0x36F)

/-- Model of `str.lower()` on the modelled characters: the ASCII capital
letters, plus the fullwidth letter U+FF2E whose lowercase is U+FF4E.
(Accented capitals never reach the lower-casing step of `normalize`:
their decompositions are filtered first.) -/
def pyLower (c : Char) : Char :=
  match c with
  | 'A' => 'a' | 'B' => 'b' | 'C' => 'c' | 'D' => 'd' | 'E' => 'e'
  | 'F' => 'f' | 'G' => 'g' | 'H' => 'h' | 'I' => 'i' | 'J' => 'j'
  | 'K' => 'k' | 'L' => 'l' | 'M' => 'm' | 'N' => 'n' | 'O' => 'o'
  | 'P' => 'p' | 'Q' => 'q' | 'R' => 'r' | 'S' => 's' | 'T' => 't'
  | 'U' => 'u' | 'V' => 'v' | 'W' => 'w' | 'X' => 'x' | 'Y' => 'y'
  | 'Z' => 'z'
  | 'Ｎ' => 'ｎ'
  | c => c

/-- `COLUMN_ALIASES = frozenset({"numero", "num"})` from
`scripts/excel_processor.py`. -/
def COLUMN_ALIASES : List (List Char) := ["numero".data, "num".data]

/-- Model of `normalize` from `scripts/excel_processor.py`: NFKD
decomposition, combining marks dropped, all whitespace removed
(`re.sub(r"\s+", "", _)`), then lower-cased. -/
def normalize (s : List Char) : List Char :=
  (((s.flatMap nfkd).filter fun c => !comb c).filter fun c => !wsChar c).map pyLower

/-- The normalisation the claim describes, with Unicode canonical
decomposition (NFD) in place of the code's compatibility decomposition:
decompose canonically, drop combining marks, remove whitespace,
lower-case. -/
def normalizeNFD (s : List Char) : List Char :=
  (((s.flatMap nfd).filter fun c => !comb c).filter fun c => !wsChar c).map pyLower

/-- Model of `find_num_column` from `scripts/excel_processor.py`: the
first column label whose normalised key is in `COLUMN_ALIASES`, or `none`. -/
def find_num_column : List (List Char) → Option (List Char)
  | [] => none
  | c :: rest =>
    if normalize c ∈ COLUMN_ALIASES then some c else find_num_column rest

/-- No currency token occurs as a contiguous substring of `s`. -/
def NoTok (s : List Char) : Prop := ∀ t ∈ CURRENCY_SYMBOLS, ¬ t <:+: s

instance (s : List Char) : Decidable (NoTok s) := by
  unfold NoTok; infer_instance

/-- The characters kept by the stripping loop on an `M`-free string:
`dollar` / `comma` record whether the respective single-character token is
in the token list. -/
def keepTok (dollar comma : Bool) (c : Char) : Bool :=
  !((dollar && c == '$') || (comma && c == ','))

/-! ### Lemmas about `replaceAll` -/

theorem replaceAllGo_id_of_mem {pat : List Char} {c : Char} (hc : c ∈ pat) (repl : List Char) :
    ∀ (s : List Char) (f : Nat), c ∉ s → replaceAllGo pat repl f s = s := by
  intro s
  induction s with
  | nil => intro f _; cases f <;> rfl
  | cons a rest ih =>
    intro f hs
    cases f with
    | zero => rfl
    | succ f =>
      have hrest : c ∉ rest := fun h => hs (List.mem_cons_of_mem a h)
      simp only [replaceAllGo]
      rw [if_neg, ih f hrest]
      rintro ⟨-, hpre⟩
      have : pat <+: a :: rest := by simpa using hpre
      exact hs (this.subset hc)

theorem replaceAll_id_of_mem (pat : List Char) (c : Char) (hc : c ∈ pat) (repl s : List Char)
    (hs : c ∉ s) : replaceAll pat repl s = s :=
  replaceAllGo_id_of_mem hc repl s s.length hs

theorem replaceAllGo_id_of_not_infix {pat : List Char} (repl : List Char) :
    ∀ (s : List Char) (f : Nat), ¬ pat <:+: s → replaceAllGo pat repl f s = s := by
  intro s
  induction s with
  | nil => intro f _; cases f <;> rfl
  | cons a rest ih =>
    intro f hs
    cases f with
    | zero => rfl
    | succ f =>
      have hrest : ¬ pat <:+: rest := fun h => hs (List.infix_cons h)
      simp only [replaceAllGo]
      rw [if_neg, ih f hrest]
      rintro ⟨-, hpre⟩
      have : pat <+: a :: rest := by simpa using hpre
      exact hs this.isInfix

theorem replaceAll_id_of_not_infix (pat repl s : List Char)
    (hs : ¬ pat <:+: s) : replaceAll pat repl s = s :=
  replaceAllGo_id_of_not_infix repl s s.length hs

theorem replaceAllGo_single (c : Char) :
    ∀ (s : List Char) (f : Nat), s.length ≤ f →
      replaceAllGo [c] [] f s = s.filter (fun x => x != c) := by
  intro s
  induction s with
  | nil => intro f _; cases f <;> rfl
  | cons a rest ih =>
    intro f hf
    cases f with
    | zero => exact absurd hf (by simp)
    | succ f =>
      have hf' : rest.length ≤ f := Nat.le_of_succ_le_succ hf
      simp only [replaceAllGo]
      by_cases hac : c = a
      · subst hac
        rw [if_pos]
        · simp [ih f hf']
        · exact ⟨by simp, by simp [List.isPrefixOf]⟩
      · rw [if_neg]
        · have hne : (a != c) = true := by simp [bne, BEq.beq]; exact fun h => hac h.symm
          simp [List.filter_cons, hne, ih f hf']
        · rintro ⟨-, hpre⟩
          have : [c] <+: a :: rest := by simpa using hpre
          rcases this with ⟨t, ht⟩
          simp at ht
          exact hac ht.1

theorem replaceAll_single_filter (c : Char) (s : List Char) :
    replaceAll [c] [] s = s.filter (fun x => x != c) :=
  replaceAllGo_single c s s.length Nat.le.refl

/-! ### Lemmas about `pyStrip` -/

theorem dropTrailing_isPrefix (p : Char → Bool) (s : List Char) : dropTrailing p s <+: s := by
  have h1 : s.reverse.dropWhile p <:+ s.reverse := List.dropWhile_suffix p
  rcases h1 with ⟨t, ht⟩
  refine ⟨t.reverse, ?_⟩
  have := congrArg List.reverse ht
  simpa [dropTrailing, List.reverse_append] using this

theorem pyStrip_isInfix (s : List Char) : pyStrip s <:+: s :=
  ((dropTrailing_isPrefix wsChar (s.dropWhile wsChar)).isInfix).trans
    ((List.dropWhile_suffix wsChar).isInfix)

theorem dropWhile_dropWhile (p : Char → Bool) (s : List Char) :
    (s.dropWhile p).dropWhile p = s.dropWhile p := by
  induction s with
  | nil => rfl
  | cons a rest ih =>
    by_cases h : p a
    · simp [List.dropWhile_cons, h, ih]
    · simp [List.dropWhile_cons, h]

theorem dropWhile_dropTrailing (p : Char → Bool) (u : List Char)
    (hu : u.dropWhile p = u) : (dropTrailing p u).dropWhile p = dropTrailing p u := by
  cases u with
  | nil => rfl
  | cons a rest =>
    have ha : p a = false := by
      by_cases h : p a
      · rw [List.dropWhile_cons, if_pos h] at hu
        have := congrArg List.length hu
        simp at this
        have hle := (List.dropWhile_suffix (l := rest) p).length_le
        omega
      · simpa using h
    rcases hd : dropTrailing p (a :: rest) with _ | ⟨b, t⟩
    · rfl
    · have hpre : b :: t <+: a :: rest := hd ▸ dropTrailing_isPrefix p (a :: rest)
      rcases hpre with ⟨w, hw⟩
      have hb : b = a := by
        have := congrArg (fun l => l.head?) hw
        simpa using this
      subst hb
      simp [List.dropWhile_cons, ha]

theorem dropTrailing_dropTrailing (p : Char → Bool) (s : List Char) :
    dropTrailing p (dropTrailing p s) = dropTrailing p s := by
  simp [dropTrailing, dropWhile_dropWhile]

theorem pyStrip_pyStrip (s : List Char) : pyStrip (pyStrip s) = pyStrip s := by
  have h1 : (s.dropWhile wsChar).dropWhile wsChar = s.dropWhile wsChar :=
    dropWhile_dropWhile wsChar s
  show dropTrailing wsChar ((dropTrailing wsChar (s.dropWhile wsChar)).dropWhile wsChar) =
    dropTrailing wsChar (s.dropWhile wsChar)
  rw [dropWhile_dropTrailing wsChar _ h1, dropTrailing_dropTrailing]

/-! ### Token stripping is the identity on token-free strings -/

theorem stripTokens_id_of_noTok {s : List Char} (h : NoTok s) : stripTokens s = s := by
  have h1 := replaceAll_id_of_not_infix "$".data [] s (h _ (by simp [CURRENCY_SYMBOLS]))
  have h2 := replaceAll_id_of_not_infix "MXN".data [] s (h _ (by simp [CURRENCY_SYMBOLS]))
  have h3 := replaceAll_id_of_not_infix "M.N.".data [] s (h _ (by simp [CURRENCY_SYMBOLS]))
  have h4 := replaceAll_id_of_not_infix "MN".data [] s (h _ (by simp [CURRENCY_SYMBOLS]))
  have h5 := replaceAll_id_of_not_infix ",".data [] s (h _ (by simp [CURRENCY_SYMBOLS]))
  simp only [stripTokens, stripTokensIn, CURRENCY_SYMBOLS, List.foldl_cons, List.foldl_nil]
  rw [h1, h2, h3, h4, h5]

/-! ### Order independence of token stripping on `M`-free strings -/

theorem stripTokensIn_eq_filter (l : List (List Char))
    (hl : ∀ t ∈ l, t ∈ CURRENCY_SYMBOLS) (s : List Char) (hM : 'M' ∉ s) :
    stripTokensIn l s =
      s.filter (keepTok (decide ("$".data ∈ l)) (decide (",".data ∈ l))) := by
  induction l generalizing s with
  | nil =>
    simp only [stripTokensIn, List.foldl_nil]
    rw [Eq.comm, List.filter_eq_self]
    intro a _
    simp [keepTok]
  | cons t l' ih =>
    have ht : t ∈ CURRENCY_SYMBOLS := hl t (List.mem_cons_self t l')
    have hl' : ∀ u ∈ l', u ∈ CURRENCY_SYMBOLS := fun u hu => hl u (List.mem_cons_of_mem t hu)
    have hstep : stripTokensIn (t :: l') s = stripTokensIn l' (replaceAll t [] s) := by
      simp [stripTokensIn, List.foldl_cons]
    simp only [CURRENCY_SYMBOLS, List.mem_cons, List.not_mem_nil, or_false] at ht
    rcases ht with rfl | rfl | rfl | rfl | rfl
    · -- t = "$"
      have hrepl : replaceAll "$".data [] s = s.filter (fun x => x != '$') :=
        replaceAll_single_filter '$' s
      have hM' : 'M' ∉ s.filter (fun x => x != '$') :=
        fun h => hM (List.mem_of_mem_filter h)
      rw [hstep, hrepl, ih hl' _ hM', List.filter_filter]
      apply List.filter_congr
      intro x _
      have hdol : decide ("$".data ∈ "$".data :: l') = true := by simp
      have hcom : decide (",".data ∈ "$".data :: l') = decide (",".data ∈ l') := by
        apply decide_eq_decide.mpr
        simp only [List.mem_cons]
        exact or_iff_right (by decide)
      rw [hdol, hcom]
      cases h1 : (x == '$') <;> simp [keepTok, bne, h1]
    · -- t = "MXN"
      have hrepl : replaceAll "MXN".data [] s = s :=
        replaceAll_id_of_mem "MXN".data 'M' (by decide) [] s hM
      rw [hstep, hrepl, ih hl' s hM]
      apply List.filter_congr
      intro x _
      have hdol : decide ("$".data ∈ "MXN".data :: l') = decide ("$".data ∈ l') := by
        apply decide_eq_decide.mpr
        simp only [List.mem_cons]
        exact or_iff_right (by decide)
      have hcom : decide (",".data ∈ "MXN".data :: l') = decide (",".data ∈ l') := by
        apply decide_eq_decide.mpr
        simp only [List.mem_cons]
        exact or_iff_right (by decide)
      rw [hdol, hcom]
    · -- t = "M.N."
      have hrepl : replaceAll "M.N.".data [] s = s :=
        replaceAll_id_of_mem "M.N.".data 'M' (by decide) [] s hM
      rw [hstep, hrepl, ih hl' s hM]
      apply List.filter_congr
      intro x _
      have hdol : decide ("$".data ∈ "M.N.".data :: l') = decide ("$".data ∈ l') := by
        apply decide_eq_decide.mpr
        simp only [List.mem_cons]
        exact or_iff_right (by decide)
      have hcom : decide (",".data ∈ "M.N.".data :: l') = decide (",".data ∈ l') := by
        apply decide_eq_decide.mpr
        simp only [List.mem_cons]
        exact or_iff_right (by decide)
      rw [hdol, hcom]
    · -- t = "MN"
      have hrepl : replaceAll "MN".data [] s = s :=
        replaceAll_id_of_mem "MN".data 'M' (by decide) [] s hM
      rw [hstep, hrepl, ih hl' s hM]
      apply List.filter_congr
      intro x _
      have hdol : decide ("$".data ∈ "MN".data :: l') = decide ("$".data ∈ l') := by
        apply decide_eq_decide.mpr
        simp only [List.mem_cons]
        exact or_iff_right (by decide)
      have hcom : decide (",".data ∈ "MN".data :: l') = decide (",".data ∈ l') := by
        apply decide_eq_decide.mpr
        simp only [List.mem_cons]
        exact or_iff_right (by decide)
      rw [hdol, hcom]
    · -- t = ","
      have hrepl : replaceAll ",".data [] s = s.filter (fun x => x != ',') :=
        replaceAll_single_filter ',' s
      have hM' : 'M' ∉ s.filter (fun x => x != ',') :=
        fun h => hM (List.mem_of_mem_filter h)
      rw [hstep, hrepl, ih hl' _ hM', List.filter_filter]
      apply List.filter_congr
      intro x _
      have hcom : decide (",".data ∈ ",".data :: l') = true := by simp
      have hdol : decide ("$".data ∈ ",".data :: l') = decide ("$".data ∈ l') := by
        apply decide_eq_decide.mpr
        simp only [List.mem_cons]
        exact or_iff_right (by decide)
      rw [hdol, hcom]
      cases h1 : (x == ',') <;> simp [keepTok, bne, h1]

/-! ### Stability of the characters `normalize` outputs -/

theorem nfkd_eq_or_mem (a : Char) :
    nfkd a = [a] ∨
      a ∈ ['Ｎ', 'ｎ', 'á', 'é', 'í', 'ó', 'ú', 'ü', 'ñ', 'Á', 'É', 'Í', 'Ó', 'Ú', 'Ü', 'Ñ'] := by
  unfold nfkd
  split
  · right; decide
  · right; decide
  · unfold nfd
    split <;> first | (left; rfl) | (right; decide)

theorem pyLower_eq_or_mem (a : Char) :
    pyLower a = a ∨
      a ∈ ['A', 'B', 'C', 'D', 'E', 'F', 'G', 'H', 'I', 'J', 'K', 'L', 'M', 'N', 'O', 'P',
           'Q', 'R', 'S', 'T', 'U', 'V', 'W', 'X', 'Y', 'Z', 'Ｎ'] := by
  unfold pyLower
  split <;> first | (left; rfl) | (right; decide)

theorem normalize_char_stable (a : Char) :
    ∀ d ∈ nfkd a, comb d = false → wsChar d = false →
      nfkd (pyLower d) = [pyLower d] ∧ comb (pyLower d) = false ∧
        wsChar (pyLower d) = false ∧ pyLower (pyLower d) = pyLower d := by
  rcases nfkd_eq_or_mem a with h | h
  · rw [h]
    intro d hd hc hw
    have hd' : d = a := by simpa using hd
    subst hd'
    rcases pyLower_eq_or_mem d with h2 | h2
    · rw [h2]
      exact ⟨h, hc, hw, h2⟩
    · fin_cases h2 <;> first | (exact absurd h (by decide)) | decide
  · fin_cases h <;> decide

theorem flatMap_id_of (l : List Char) (f : Char → List Char) (h : ∀ c ∈ l, f c = [c]) :
    l.flatMap f = l := by
  induction l with
  | nil => rfl
  | cons a t ih =>
    rw [List.flatMap_cons, h a (List.mem_cons_self a t),
      ih fun c hc => h c (List.mem_cons_of_mem a hc)]
    rfl

theorem normalize_output_stable (x : List Char) :
    ∀ c ∈ normalize x,
      nfkd c = [c] ∧ comb c = false ∧ wsChar c = false ∧ pyLower c = c := by
  intro c hc
  simp only [normalize, List.mem_map, List.mem_filter, List.mem_flatMap] at hc
  obtain ⟨d, ⟨⟨⟨a, ha, hda⟩, hcomb⟩, hws⟩, rfl⟩ := hc
  exact normalize_char_stable a d hda (by simpa using hcomb) (by simpa using hws)

/-! ### Claim theorems -/

/-- C1.  The claim states `0 ≤ cent_part ≤ 99` and a two-digit `\d{2}/100`
cents component for every accepted amount.  The code violates this: on
the accepted input `"0.999"` the cent part is `round(99.9) = 100` and the
rendered phrase is `CERO PESOS 100/100 M.N.`, with a three-digit cents
component outside `0..99`.  This theorem evaluates the code at the
failing input and exhibits the out-of-range cent part. -/
theorem cent_part_overflow_eval :
    numero_a_texto (.vstr "0.999".data) = .ok "CERO PESOS 100/100 M.N.".data ∧
    pyRound (ratMul (ratSub (mkRat 999 1000) (mkRat (ratTrunc (mkRat 999 1000)) 1))
      (mkRat (DECIMAL_PRECISION : ℤ) 1)) = 100 ∧
    ¬ (0 ≤ (100 : ℤ) ∧ (100 : ℤ) ≤ 99) := by
  refine ⟨by decide, by decide, by decide⟩

/-- C2.  The claim states that `numero_a_texto` never raises past its own
boundary.  Its `except` clause catches only `ValueError`, `TypeError` and
`AttributeError`; the plain string input `"1e400"` parses to float
infinity, and `int(inf)` then raises `OverflowError`, which escapes.
This theorem evaluates the code at the failing input. -/
theorem renderer_uncaught_overflow_eval :
    pyFloatOfString "1e400".data = some .inf ∧
    numero_a_texto (.vstr "1e400".data) = .error .overflowError := by
  refine ⟨by decide, by decide⟩

/-- C3 counterexample.  Stripping the tokens in the order
`MN, $, MXN, M.N., ,` — a permutation of the configured order — is not
the same as the implementation's fixed order on the input `"M$N"`:
removing `$` first creates a fresh `MN` occurrence, which the fixed order
then removes (yielding the empty string) but the permuted order misses
(yielding `"MN"`). -/
theorem strip_order_dependent_cex :
    (["MN".data, "$".data, "MXN".data, "M.N.".data, ",".data]).Perm CURRENCY_SYMBOLS ∧
    stripTokensIn ["MN".data, "$".data, "MXN".data, "M.N.".data, ",".data] "M$N".data =
      "MN".data ∧
    stripTokens "M$N".data = [] ∧
    stripTokensIn ["MN".data, "$".data, "MXN".data, "M.N.".data, ",".data] "M$N".data ≠
      stripTokens "M$N".data := by
  refine ⟨by decide, by decide, by decide, by decide⟩

/-- C3, amended.  On every input string that contains no `M` character —
in particular every plain numeric string built from digits, signs, `.`,
`$`, `,` and whitespace — stripping the five configured tokens once in
any order yields the same cleaned string as the implementation's fixed
order.  (For strings containing `M` the result can depend on the order,
as the counterexample `"M$N"` shows.) -/
theorem strip_order_indep_of_no_M (s : List Char) (hM : 'M' ∉ s)
    (l : List (List Char)) (hl : l.Perm CURRENCY_SYMBOLS) :
    stripTokensIn l s = stripTokens s := by
  have h1 := stripTokensIn_eq_filter l (fun t ht => hl.mem_iff.mp ht) s hM
  have h2 := stripTokensIn_eq_filter CURRENCY_SYMBOLS (fun t ht => ht) s hM
  rw [stripTokens, h1, h2]
  have hd : decide ("$".data ∈ l) = decide ("$".data ∈ CURRENCY_SYMBOLS) :=
    decide_eq_decide.mpr hl.mem_iff
  have hc : decide (",".data ∈ l) = decide (",".data ∈ CURRENCY_SYMBOLS) :=
    decide_eq_decide.mpr hl.mem_iff
  rw [hd, hc]

/-- Witness for `strip_order_indep_of_no_M` at a concrete permutation and
a concrete numeric string. -/
theorem strip_order_indep_of_no_M_witness :
    stripTokensIn [",".data, "MN".data, "M.N.".data, "MXN".data, "$".data] "$1,234.56".data =
      stripTokens "$1,234.56".data :=
  strip_order_indep_of_no_M "$1,234.56".data (by decide) _ (by decide)

/-- C9.  A label returned by `find_num_column` is one of the input
labels, verbatim. -/
theorem find_num_column_returns_member (cols : List (List Char)) (label : List Char)
    (h : find_num_column cols = some label) : label ∈ cols := by
  induction cols with
  | nil => simp [find_num_column] at h
  | cons c rest ih =>
    by_cases hc : normalize c ∈ COLUMN_ALIASES
    · simp only [find_num_column, if_pos hc, Option.some.injEq] at h
      exact h ▸ List.mem_cons_self c rest
    · simp only [find_num_column, if_neg hc] at h
      exact List.mem_cons_of_mem c (ih h)

/-- Witness for `find_num_column_returns_member`. -/
theorem find_num_column_returns_member_witness : "Número".data ∈ ["Fecha".data, "Número".data] :=
  find_num_column_returns_member ["Fecha".data, "Número".data] "Número".data (by decide)

/-- C4 counterexample.  The claim says the normalised key uses Unicode
canonical decomposition (NFD).  The code uses compatibility decomposition
(NFKD).  They differ observably: for the single label `Ｎum` (fullwidth
N, U+FF2E) no label has an NFD-normalised key in the alias set — NFD
leaves `Ｎ` intact, so the key is `ｎum` — yet `find_num_column` returns
the label, because NFKD maps `Ｎ` to `N` and the key becomes `num`. -/
theorem find_num_column_not_canonical_cex :
    find_num_column ["Ｎum".data] = some "Ｎum".data ∧
    normalizeNFD "Ｎum".data = "ｎum".data ∧
    (∀ label ∈ ["Ｎum".data], normalizeNFD label ∉ COLUMN_ALIASES) := by
  refine ⟨by decide, by decide, by decide⟩

/-- C4, amended: with the normalised key computed by compatibility
decomposition (NFKD) — as the code does — `find_num_column` returns the
first label, in the input order, whose key is in the alias set, and
`none` exactly when no label's key is in the set. -/
theorem find_num_column_first_match_nfkd (cols : List (List Char)) :
    (∀ label, find_num_column cols = some label →
      ∃ l₁ l₂, cols = l₁ ++ label :: l₂ ∧ normalize label ∈ COLUMN_ALIASES ∧
        ∀ x ∈ l₁, normalize x ∉ COLUMN_ALIASES) ∧
    (find_num_column cols = none ↔ ∀ label ∈ cols, normalize label ∉ COLUMN_ALIASES) := by
  induction cols with
  | nil =>
    refine ⟨fun label h => by simp [find_num_column] at h, ?_⟩
    simp [find_num_column]
  | cons c rest ih =>
    by_cases hc : normalize c ∈ COLUMN_ALIASES
    · refine ⟨fun label h => ?_, ?_⟩
      · simp only [find_num_column, if_pos hc, Option.some.injEq] at h
        subst h
        exact ⟨[], rest, rfl, hc, by simp⟩
      · constructor
        · intro h
          simp [find_num_column, hc] at h
        · intro h
          exact absurd hc (h c (List.mem_cons_self c rest))
    · have hstep : find_num_column (c :: rest) = find_num_column rest := by
        simp [find_num_column, hc]
      refine ⟨fun label h => ?_, ?_⟩
      · rw [hstep] at h
        obtain ⟨l₁, l₂, heq, hmem, hnone⟩ := ih.1 label h
        refine ⟨c :: l₁, l₂, by simp [heq], hmem, ?_⟩
        intro x hx
        rcases List.mem_cons.mp hx with rfl | hx'
        · exact hc
        · exact hnone x hx'
      · rw [hstep, ih.2]
        constructor
        · intro h label hl
          rcases List.mem_cons.mp hl with rfl | hl'
          · exact hc
          · exact h label hl'
        · intro h label hl
          exact h label (List.mem_cons_of_mem c hl)

/-- Witness for `find_num_column_first_match_nfkd`:
the accented label `Número` is found after a non-matching label. -/
theorem find_num_column_first_match_nfkd_witness :
    ∃ l₁ l₂, ["Fecha".data, "Número".data] = l₁ ++ "Número".data :: l₂ ∧
      normalize "Número".data ∈ COLUMN_ALIASES ∧
      ∀ x ∈ l₁, normalize x ∉ COLUMN_ALIASES :=
  (find_num_column_first_match_nfkd ["Fecha".data, "Número".data]).1 "Número".data (by decide)

/-- C5 counterexample.  The claim says every whole-word occurrence of
`UNO` — including one at a word boundary at both the start and the end of
the string — is replaced by `UN`.  The cardinal text of the integer part
`1` is exactly `UNO`; all three textual replacements require an adjacent
space, so the chain leaves it unchanged, while the claimed whole-word
substitution would produce `UN`. -/
theorem normalizeUno_bare_uno_cex :
    pyUpper (num2words_es 1) = "UNO".data ∧
    normalizeUno "UNO".data = "UNO".data ∧
    wholeWordUnoNorm "UNO".data = "UN".data ∧
    normalizeUno "UNO".data ≠ wholeWordUnoNorm "UNO".data := by
  refine ⟨by decide, by decide, by decide, by decide⟩

/-- C5, amended.  The chain of replacements rewrites `UNO` exactly where
it is adjacent to a space: a cardinal text containing no space at all —
the bare `UNO` of integer part 1 (compensated by the renderer's
`UN PESO` special case) and single compound words such as `VEINTIUNO` —
is left unchanged, while space-adjacent whole-word occurrences are
replaced; the substitution is not word-boundary-aware, so a compound
followed by a space is also rewritten (`VEINTIUNO MIL` → `VEINTIUN MIL`). -/
theorem normalizeUno_amended :
    (∀ w : List Char, ' ' ∉ w → normalizeUno w = w) ∧
    normalizeUno "CIENTO UNO".data = "CIENTO UN".data ∧
    normalizeUno "UNO MIL".data = "UN MIL".data ∧
    normalizeUno "TREINTA Y UNO".data = "TREINTA Y UN".data ∧
    normalizeUno "VEINTIUNO MIL".data = "VEINTIUN MIL".data := by
  refine ⟨fun w hw => ?_, by decide, by decide, by decide, by decide⟩
  unfold normalizeUno
  rw [replaceAll_id_of_mem " UNO ".data ' ' (by decide) " UN ".data w hw,
      replaceAll_id_of_mem "UNO ".data ' ' (by decide) "UN ".data w hw,
      replaceAll_id_of_mem " UNO".data ' ' (by decide) " UN".data w hw]

/-- Witness for `normalizeUno_amended`: the space-free compound
`VEINTIUNO` is untouched. -/
theorem normalizeUno_amended_witness :
    normalizeUno "VEINTIUNO".data = "VEINTIUNO".data :=
  normalizeUno_amended.1 "VEINTIUNO".data (by decide)

/-- C6.  `clean_num` returns no value exactly when the input is `None` or
a string whose cleaned form (strip, token removal, strip) is empty — the
absent / empty / whitespace-only / strips-to-empty cases; it fails exactly
on a string whose non-empty cleaned form does not parse as a float, and
the error carries the original input.  No other failure is possible: the
result type shows every other input yields a value. -/
theorem clean_num_spec (v : Value) :
    (clean_num v = .ok none ↔ v = .vnone ∨ ∃ s, v = .vstr s ∧ cleanedStr s = []) ∧
    (∀ e, clean_num v = .error e → e.src = v ∧
      ∃ s, v = .vstr s ∧ cleanedStr s ≠ [] ∧ pyFloatOfString (cleanedStr s) = none) ∧
    (∀ s, v = .vstr s → cleanedStr s ≠ [] → pyFloatOfString (cleanedStr s) = none →
      clean_num v = .error ⟨.vstr s⟩) := by
  match v with
  | .vnone =>
    refine ⟨by simp [clean_num], fun e he => by simp [clean_num] at he, fun s hs => by cases hs⟩
  | .vint n =>
    refine ⟨by simp [clean_num], fun e he => by simp [clean_num] at he, fun s hs => by cases hs⟩
  | .vfloat f =>
    refine ⟨by simp [clean_num], fun e he => by simp [clean_num] at he, fun s hs => by cases hs⟩
  | .vstr s =>
    by_cases h0 : s = [] ∨ s = [' ']
    · have hcl : cleanedStr s = [] := by
        rcases h0 with rfl | rfl
        · decide
        · decide
      have hval : clean_num (.vstr s) = .ok none := by
        show (if s = [] ∨ s = [' '] then (Except.ok none : Except ConvError (Option PyFloat))
          else if cleanedStr s = [] then Except.ok none
          else match pyFloatOfString (cleanedStr s) with
            | some f => Except.ok (some f)
            | none => Except.error ⟨.vstr s⟩) = Except.ok none
        rw [if_pos h0]
      refine ⟨?_, ?_, ?_⟩
      · rw [hval]
        simp only [true_iff]
        exact Or.inr ⟨s, rfl, hcl⟩
      · intro e he
        rw [hval] at he
        cases he
      · intro s' hs' hne _
        cases hs'
        exact absurd hcl hne
    · by_cases h3 : cleanedStr s = []
      · have hval : clean_num (.vstr s) = .ok none := by
          show (if s = [] ∨ s = [' '] then (Except.ok none : Except ConvError (Option PyFloat))
            else if cleanedStr s = [] then Except.ok none
            else match pyFloatOfString (cleanedStr s) with
              | some f => Except.ok (some f)
              | none => Except.error ⟨.vstr s⟩) = Except.ok none
          rw [if_neg h0]
          exact if_pos h3
        refine ⟨?_, ?_, ?_⟩
        · rw [hval]
          simp only [true_iff]
          exact Or.inr ⟨s, rfl, h3⟩
        · intro e he
          rw [hval] at he
          cases he
        · intro s' hs' hne _
          cases hs'
          exact absurd h3 hne
      · rcases hp : pyFloatOfString (cleanedStr s) with _ | f
        · have hval : clean_num (.vstr s) = .error ⟨.vstr s⟩ := by
            show (if s = [] ∨ s = [' '] then (Except.ok none : Except ConvError (Option PyFloat))
              else if cleanedStr s = [] then Except.ok none
              else match pyFloatOfString (cleanedStr s) with
                | some f => Except.ok (some f)
                | none => Except.error ⟨.vstr s⟩) = Except.error ⟨.vstr s⟩
            rw [if_neg h0, if_neg h3, hp]
          refine ⟨?_, ?_, ?_⟩
          · rw [hval]
            constructor
            · intro he
              cases he
            · rintro (he | ⟨s', hs', hcl⟩)
              · cases he
              · cases hs'
                exact absurd hcl h3
          · intro e he
            rw [hval] at he
            cases he
            exact ⟨rfl, s, rfl, h3, hp⟩
          · intro s' hs' _ _
            cases hs'
            exact hval
        · have hval : clean_num (.vstr s) = .ok (some f) := by
            show (if s = [] ∨ s = [' '] then (Except.ok none : Except ConvError (Option PyFloat))
              else if cleanedStr s = [] then Except.ok none
              else match pyFloatOfString (cleanedStr s) with
                | some f => Except.ok (some f)
                | none => Except.error ⟨.vstr s⟩) = Except.ok (some f)
            rw [if_neg h0, if_neg h3, hp]
          refine ⟨?_, ?_, ?_⟩
          · rw [hval]
            constructor
            · intro he
              cases he
            · rintro (he | ⟨s', hs', hcl⟩)
              · cases he
              · cases hs'
                exact absurd hcl h3
          · intro e he
            rw [hval] at he
            cases he
          · intro s' hs' _ hpn
            cases hs'
            exact absurd hpn (by rw [hp]; intro h; cases h)

/-- Witness for `clean_num_spec`: the unparsable string `abc` fails with
an error carrying the original input. -/
theorem clean_num_spec_witness :
    clean_num (.vstr "abc".data) = .error ⟨.vstr "abc".data⟩ :=
  (clean_num_spec (.vstr "abc".data)).2.2 "abc".data rfl (by decide) (by decide)

/-- C7.  The renderer's reference values: the singular special case for
1, zero, the worked example 1523.45, and the three empty-result inputs. -/
theorem render_reference_values :
    numero_a_texto (.vint 1) = .ok "UN PESO 00/100 M.N.".data ∧
    numero_a_texto (.vint 0) = .ok "CERO PESOS 00/100 M.N.".data ∧
    numero_a_texto (.vfloat (.finite (mkRat 152345 100))) =
      .ok "MIL QUINIENTOS VEINTITRÉS PESOS 45/100 M.N.".data ∧
    numero_a_texto (.vstr "".data) = .ok "".data ∧
    numero_a_texto .vnone = .ok "".data ∧
    numero_a_texto (.vstr "   ".data) = .ok "".data := by
  refine ⟨by decide, by decide, by decide, by decide, by decide, by decide⟩

/-- C8.  Currency-token stripping is semantically inert: the rendered
phrase of `"$1,234.56"` equals that of the float `1234.56`, and on any
string free of the configured tokens `clean_num` returns exactly what
`float()` returns on the (stripped) string itself. -/
theorem currency_stripping_inert :
    numero_a_texto (.vstr "$1,234.56".data) =
      numero_a_texto (.vfloat (.finite (mkRat 123456 100))) ∧
    ∀ (s : List Char) (f : PyFloat), NoTok s → pyFloatOfString (pyStrip s) = some f →
      clean_num (.vstr s) = .ok (some f) := by
  refine ⟨by decide, fun s f hNoTok hparse => ?_⟩
  have hne : ¬ (s = [] ∨ s = [' ']) := by
    rintro (rfl | rfl)
    · rw [show pyStrip ([] : List Char) = [] from rfl] at hparse
      simp [pyFloatOfString] at hparse
    · rw [show pyStrip [' '] = [] by decide] at hparse
      simp [pyFloatOfString] at hparse
  have hclean : cleanedStr s = pyStrip s := by
    unfold cleanedStr
    rw [stripTokens_id_of_noTok, pyStrip_pyStrip]
    intro t ht hinf
    exact hNoTok t ht (hinf.trans (pyStrip_isInfix s))
  have hne3 : cleanedStr s ≠ [] := by
    rw [hclean]
    intro h0
    rw [h0] at hparse
    simp [pyFloatOfString] at hparse
  show (if s = [] ∨ s = [' '] then (Except.ok none : Except ConvError (Option PyFloat))
    else if cleanedStr s = [] then Except.ok none
    else match pyFloatOfString (cleanedStr s) with
      | some f => Except.ok (some f)
      | none => Except.error ⟨.vstr s⟩) = Except.ok (some f)
  rw [if_neg hne, if_neg hne3, hclean, hparse]

/-- Witness for `currency_stripping_inert`: a plain decimal string parses
to the same value through `clean_num` and through `float()` directly. -/
theorem currency_stripping_inert_witness :
    clean_num (.vstr "12.5".data) = .ok (some (.finite (mkRat 25 2))) :=
  currency_stripping_inert.2 "12.5".data (.finite (mkRat 25 2)) (by decide) (by decide)

/-- C10.  `normalize` is idempotent: every character it outputs is
NFKD-stable, non-combining, non-whitespace and lowercase-stable, so a
second application changes nothing. -/
theorem normalize_idempotent (x : List Char) : normalize (normalize x) = normalize x := by
  have hst := normalize_output_stable x
  have h1 : (normalize x).flatMap nfkd = normalize x :=
    flatMap_id_of _ _ fun c hc => (hst c hc).1
  have h2 : ((normalize x).filter fun c => !comb c) = normalize x :=
    List.filter_eq_self.mpr fun c hc => by rw [(hst c hc).2.1]; rfl
  have h3 : ((normalize x).filter fun c => !wsChar c) = normalize x :=
    List.filter_eq_self.mpr fun c hc => by rw [(hst c hc).2.2.1]; rfl
  have h4 : (normalize x).map pyLower = normalize x := by
    rw [List.map_congr_left fun c hc => (hst c hc).2.2.2]
    exact List.map_id (normalize x)
  show ((((normalize x).flatMap nfkd).filter fun c => !comb c).filter
      fun c => !wsChar c).map pyLower = normalize x
  rw [h1, h2, h3, h4]

end LexNum
